import Mathlib

/-!
Verification of the scoreboard-to-CSV exporter (`ss2csv.py`).

The program has three parts, each embedded below:

1. the extractor loop over `div.st-content__item` blocks, producing one row of
   strings per player block (`player`, `rank_val`, `stats`, `row`, `rows`);
2. the collision-avoiding filename probe `next_available_filename`, which walks
   `match_stats.csv`, `match_stats_1.csv`, `match_stats_2.csv`, … until a name
   that does not exist in the directory is found;
3. the CSV writer (Python `csv.writer` with the default dialect: delimiter `,`,
   quote char `"`, minimal quoting, `\r\n` line terminator, written verbatim
   because the file is opened with `newline=""`), together with a model of a
   standard CSV reader used to state the round-trip property.

The filesystem is modelled as the finite list of existing path names, and the
unbounded `while` loop of the probe is modelled by structural recursion on a
fuel argument that is proved sufficient (`probeAux_isSome`), so every
definition is executable.
-/

/-- One scoreboard item (a `div.st-content__item` block) as seen by the
extractor loop: the text of `span.trn-ign__username` when that element is
found, the text of `span.trn-ign__discriminator` when found, the `div.rank`
container when found (holding the text of its nested `span` when that in turn
is found), and the texts of all `div.value` descendants in document order.
`none` models `find` returning no element. -/
structure PlayerItem where
  username : Option String
  discrim : Option String
  rank : Option (Option String)
  values : List String

/-- Line 23 of the source: `rank.find("span").text.strip() if rank and
rank.find("span") else ""`. -/
def rank_val (item : PlayerItem) : String :=
  match item.rank with
  | some (some s) => s.trim
  | _ => ""

/-- Line 24 of the source: the player tag
`f"{username.text.strip()}{discrim.text.strip()}" if username and discrim
else ""`. -/
def player (item : PlayerItem) : String :=
  match item.username, item.discrim with
  | some u, some d => u.trim ++ d.trim
  | _, _ => ""

/-- Line 25 of the source: `[v.text.strip() for v in item.find_all("div",
class_="value")]`. -/
def stats (item : PlayerItem) : List String :=
  item.values.map String.trim

/-- Line 26 of the source: `row = [player, rank_val] + stats`. -/
def row (item : PlayerItem) : List String :=
  [player item, rank_val item] ++ stats item

/-- Lines 18-27 of the source: the extractor produces one row per matched
block, in document order. -/
def rows (doc : List PlayerItem) : List (List String) :=
  doc.map row

/-! ### Decimal numerals

`str(i)` inside the f-string `f"match_stats_{i}.csv"` prints `i` in decimal,
which is exactly `Nat.repr`. Distinct counters must give distinct candidate
names; this is proved by exhibiting a decimal decoder that is a left inverse
of `Nat.repr`. -/

/-- Numeric value of a decimal digit character. -/
def digitVal (c : Char) : Nat := c.toNat - 48

/-- Decode a list of decimal digit characters, most significant first. -/
def decodeDigits (l : List Char) : Nat :=
  l.foldl (fun a c => a * 10 + digitVal c) 0

/-! ### Filename selection -/

/-- Line 10 of the source: the probed candidate name `f"match_stats_{i}.csv"`. -/
def candidate (i : Nat) : String :=
  "match_stats_" ++ toString i ++ ".csv"

/-- Lines 8-13 of the source: the `while True:` probe loop, unrolled with an
explicit fuel argument. `probeAux fs fuel i` probes `candidate i`,
`candidate (i+1)`, … for at most `fuel` steps and returns the first index
whose candidate does not exist. The fuel is a termination device of the
embedding, not a cap of the program: `fs.length + 1` steps always suffice
(`probeAux_isSome`), and any larger fuel gives the same result
(`probeAux_mono`). -/
def probeAux (fs : List String) : Nat → Nat → Option Nat
  | 0, _ => none
  | fuel + 1, i =>
    if candidate i ∈ fs then probeAux fs fuel (i + 1) else some i

/-- Lines 5-13 of the source: `next_available_filename`. The filesystem is the
finite list `fs` of existing paths, so `os.path.exists p` is `p ∈ fs`. The
source gives `base` the default value `'match_stats.csv'`; the sole call site
(line 29) uses that default. The `none` arm of the `match` is unreachable
because of `probeAux_isSome`. -/
def next_available_filename (fs : List String) (base : String) : String :=
  if base ∈ fs then
    match probeAux fs (fs.length + 1) 1 with
    | some i => candidate i
    | none => base
  else base

/-! ### Repeated runs

Lines 29-34 of the source: one run calls `next_available_filename()` (default
base) and then opens exactly the chosen path with mode `"w"`, creating that
one file and touching no other. `runState n` is the set of files after `n`
runs starting from an empty directory. -/

def runState : Nat → List String
  | 0 => []
  | n + 1 =>
    next_available_filename (runState n) "match_stats.csv" :: runState n

/-! ### CSV serialization

Lines 30-34 of the source use Python `csv.writer` on a file opened with
`newline=""`: default dialect, delimiter `,`, quote char `"`, minimal
quoting, records terminated by `\r\n` written verbatim. Fields and records
are modelled at the character level. -/

/-- Minimal quoting: a field must be quoted exactly when it contains the
delimiter, the quote char, or a line-terminator character. -/
def needsQuote (f : List Char) : Bool :=
  f.any (fun c => c = ',' || c = '"' || c = '\r' || c = '\n')

/-- Embedded quote chars are doubled inside a quoted field. -/
def escapeField : List Char → List Char
  | [] => []
  | c :: cs => (if c = '"' then ['"', '"'] else [c]) ++ escapeField cs

/-- One serialized field under minimal quoting. -/
def writeField (f : List Char) : List Char :=
  if needsQuote f then '"' :: (escapeField f ++ ['"']) else f

/-- Fields of one record joined with the delimiter. -/
def joinFields : List (List Char) → List Char
  | [] => []
  | [f] => writeField f
  | f :: fs => writeField f ++ ',' :: joinFields fs

/-- One serialized record, terminated by `\r\n`; like Python's writer, a
record holding a single empty field is written as `""` so that it is not read
back as a blank line. -/
def writeRecord (r : List (List Char)) : List Char :=
  if r = [[]] then ['"', '"', '\r', '\n']
  else joinFields r ++ ['\r', '\n']

/-- The whole file body: the serialized records, concatenated. -/
def writeAll : List (List (List Char)) → List Char
  | [] => []
  | r :: rs => writeRecord r ++ writeAll rs

/-- Line 32 of the source: the fixed header row. -/
def headerRow : List String :=
  ["player", "rank", "TRS", "ACS", "K", "D", "A", "+/-", "K/D", "DDΔ",
   "ADR", "HS%", "KAST", "FK", "FD", "MK"]

/-- CSV text for a list of records. -/
def csvSerialize (rs : List (List String)) : String :=
  ⟨writeAll (rs.map (fun r => r.map String.data))⟩

/-- Lines 30-34 of the source: the full content of the output file, the header
row followed by one record per extracted row. -/
def csvContent (rs : List (List String)) : String :=
  csvSerialize (headerRow :: rs)

/-! ### A standard CSV reader and the round-trip property

The reader is the state machine of Python's `csv.reader` with the default
dialect, one character at a time. `record` covers both start-of-record and
the skipping of line-terminator characters (a fully blank line yields no
record, which is why the writer quotes a single empty field). -/

/-- Reader states. -/
inductive RState
  | record
  | startField
  | inField
  | inQuoted
  | quoteInQuoted

/-- The reader: `fld` is the current field, `acc` the fields of the current
record, `out` the finished records. -/
def parseAux : RState → List Char → List Char → List (List Char) →
    List (List (List Char)) → List (List (List Char))
  | .record, [], _, _, out => out
  | .record, c :: cs, _, _, out =>
    if c = '\r' ∨ c = '\n' then parseAux .record cs [] [] out
    else if c = ',' then parseAux .startField cs [] [[]] out
    else if c = '"' then parseAux .inQuoted cs [] [] out
    else parseAux .inField cs [c] [] out
  | .startField, [], _, acc, out => out ++ [acc ++ [[]]]
  | .startField, c :: cs, _, acc, out =>
    if c = '\r' ∨ c = '\n' then parseAux .record cs [] [] (out ++ [acc ++ [[]]])
    else if c = ',' then parseAux .startField cs [] (acc ++ [[]]) out
    else if c = '"' then parseAux .inQuoted cs [] acc out
    else parseAux .inField cs [c] acc out
  | .inField, [], fld, acc, out => out ++ [acc ++ [fld]]
  | .inField, c :: cs, fld, acc, out =>
    if c = '\r' ∨ c = '\n' then parseAux .record cs [] [] (out ++ [acc ++ [fld]])
    else if c = ',' then parseAux .startField cs [] (acc ++ [fld]) out
    else parseAux .inField cs (fld ++ [c]) acc out
  | .inQuoted, [], fld, acc, out => out ++ [acc ++ [fld]]
  | .inQuoted, c :: cs, fld, acc, out =>
    if c = '"' then parseAux .quoteInQuoted cs fld acc out
    else parseAux .inQuoted cs (fld ++ [c]) acc out
  | .quoteInQuoted, [], fld, acc, out => out ++ [acc ++ [fld]]
  | .quoteInQuoted, c :: cs, fld, acc, out =>
    if c = '"' then parseAux .inQuoted cs (fld ++ ['"']) acc out
    else if c = ',' then parseAux .startField cs [] (acc ++ [fld]) out
    else if c = '\r' ∨ c = '\n' then
      parseAux .record cs [] [] (out ++ [acc ++ [fld]])
    else parseAux .inField cs (fld ++ [c]) acc out

/-- The reader applied to a whole file. -/
def csvParse (s : String) : List (List String) :=
  (parseAux .record s.data [] [] []).map
    (fun r => r.map (fun f => (⟨f⟩ : String)))

/-! ### Theorems -/

/-- C3: for every player block, `player_tag` equals the trimmed username text
concatenated directly (no delimiter) with the trimmed discriminator text when
both the username and discriminator elements are present, and equals the empty
string otherwise; it is never a partial concatenation of only one of the two. -/
theorem player_tag_spec (item : PlayerItem) :
    (∀ u d, item.username = some u → item.discrim = some d →
      player item = u.trim ++ d.trim) ∧
    ((item.username = none ∨ item.discrim = none) → player item = "") := by
  obtain ⟨u, d, r, v⟩ := item
  refine ⟨?_, ?_⟩
  · rintro u' d' rfl rfl
    rfl
  · rintro (rfl | rfl)
    · cases d <;> rfl
    · cases u <;> rfl

/-- Witness for `player_tag_spec` at concrete blocks: one with both elements
present, one with the username element missing. -/
theorem player_tag_spec_witness :
    player ⟨some " Player ", some "#1234", some (some "Gold"), ["10"]⟩ =
      " Player ".trim ++ "#1234".trim ∧
    player ⟨none, some "#1234", none, []⟩ = "" :=
  ⟨(player_tag_spec _).1 _ _ rfl rfl, (player_tag_spec _).2 (Or.inl rfl)⟩

/-- C4: for every player block, the rank field equals the trimmed text of the
nested label element when both the rank container and its nested label are
present, and equals the empty string when either is absent; `rank_val` is a
total function, so absence never causes a failure. -/
theorem rank_val_spec (item : PlayerItem) :
    (∀ s, item.rank = some (some s) → rank_val item = s.trim) ∧
    ((item.rank = none ∨ item.rank = some none) → rank_val item = "") := by
  obtain ⟨u, d, r, v⟩ := item
  refine ⟨?_, ?_⟩
  · rintro s rfl
    rfl
  · rintro (rfl | rfl) <;> rfl

/-- Witness for `rank_val_spec` at concrete blocks: rank container with its
nested label, and a rank container whose nested label is missing. -/
theorem rank_val_spec_witness :
    rank_val ⟨some "a", some "b", some (some " Gold "), []⟩ = " Gold ".trim ∧
    rank_val ⟨some "a", some "b", some none, []⟩ = "" :=
  ⟨(rank_val_spec _).1 _ rfl, (rank_val_spec _).2 (Or.inr rfl)⟩

/-- C5: for every player block, the emitted row is `[player_tag, rank]`
followed by the trimmed text of every matched value element in the order they
appear in the block, with no reordering and no padding; a block with `k` value
elements yields a row of length `k + 2`. -/
theorem row_spec (item : PlayerItem) :
    row item = [player item, rank_val item] ++ item.values.map String.trim ∧
    (row item).length = item.values.length + 2 ∧
    (row item).take 2 = [player item, rank_val item] ∧
    (row item).drop 2 = item.values.map String.trim := by
  refine ⟨rfl, ?_, rfl, rfl⟩
  simp [row, stats]

theorem digitVal_digitChar (d : Nat) (h : d < 10) :
    digitVal (Nat.digitChar d) = d := by
  interval_cases d <;> decide

theorem toDigitsCore_append (fuel : Nat) : ∀ (n : Nat) (ds : List Char),
    Nat.toDigitsCore 10 fuel n ds = Nat.toDigitsCore 10 fuel n [] ++ ds := by
  induction fuel with
  | zero => intro n ds; rfl
  | succ f ih =>
    intro n ds
    simp only [Nat.toDigitsCore]
    by_cases h : n / 10 = 0
    · simp [h]
    · simp only [if_neg h]
      rw [ih (n / 10) [Nat.digitChar (n % 10)],
        ih (n / 10) (Nat.digitChar (n % 10) :: ds), List.append_assoc]
      rfl

theorem toDigitsCore_fuel (f1 : Nat) : ∀ (f2 n : Nat), n < f1 → n < f2 →
    Nat.toDigitsCore 10 f1 n [] = Nat.toDigitsCore 10 f2 n [] := by
  induction f1 with
  | zero => intro f2 n h1; omega
  | succ g ih =>
    intro f2 n h1 h2
    cases f2 with
    | zero => omega
    | succ k =>
      simp only [Nat.toDigitsCore]
      by_cases h : n / 10 = 0
      · simp [h]
      · simp only [if_neg h]
        rw [toDigitsCore_append g, toDigitsCore_append k,
          ih k (n / 10) (by omega) (by omega)]

/-- Unfolding of `Nat.toDigits 10` by one decimal digit. -/
theorem toDigits_ten_eq (n : Nat) :
    Nat.toDigits 10 n =
      if n < 10 then [Nat.digitChar n]
      else Nat.toDigits 10 (n / 10) ++ [Nat.digitChar (n % 10)] := by
  rw [Nat.toDigits]
  simp only [Nat.toDigitsCore]
  by_cases h : n / 10 = 0
  · have hn : n < 10 := by omega
    simp [h, hn, Nat.mod_eq_of_lt hn]
  · have hn : ¬ n < 10 := by omega
    simp only [if_neg h, if_neg hn]
    rw [toDigitsCore_append, Nat.toDigits,
      toDigitsCore_fuel n (n / 10 + 1) (n / 10) (by omega) (by omega)]

theorem decodeDigits_toDigits (n : Nat) :
    decodeDigits (Nat.toDigits 10 n) = n := by
  induction n using Nat.strong_induction_on with
  | _ n ih =>
    rw [toDigits_ten_eq]
    by_cases h : n < 10
    · rw [if_pos h]
      simp [decodeDigits, digitVal_digitChar n h]
    · simp only [if_neg h]
      have h10 : n / 10 < n := by omega
      have hfold : decodeDigits (Nat.toDigits 10 (n / 10) ++
          [Nat.digitChar (n % 10)]) =
          decodeDigits (Nat.toDigits 10 (n / 10)) * 10 +
            digitVal (Nat.digitChar (n % 10)) := by
        simp [decodeDigits, List.foldl_append]
      rw [hfold, ih _ h10, digitVal_digitChar (n % 10) (by omega)]
      omega

theorem natRepr_inj {m n : Nat} (h : Nat.repr m = Nat.repr n) : m = n := by
  have hd : Nat.toDigits 10 m = Nat.toDigits 10 n := congrArg String.data h
  calc m = decodeDigits (Nat.toDigits 10 m) := (decodeDigits_toDigits m).symm
    _ = decodeDigits (Nat.toDigits 10 n) := by rw [hd]
    _ = n := decodeDigits_toDigits n

theorem toDigits_ten_inj {i j : Nat} (h : Nat.toDigits 10 i = Nat.toDigits 10 j) :
    i = j := by
  calc i = decodeDigits (Nat.toDigits 10 i) := (decodeDigits_toDigits i).symm
    _ = decodeDigits (Nat.toDigits 10 j) := by rw [h]
    _ = j := decodeDigits_toDigits j

theorem candidate_inj : Function.Injective candidate := by
  intro i j h
  have hd := congrArg String.data h
  simp only [candidate, String.data_append] at hd
  have h1 := List.append_cancel_right hd
  have h2 : (toString i : String).data = (toString j : String).data :=
    List.append_cancel_left h1
  exact toDigits_ten_inj h2

theorem toDigits_ten_length_pos (n : Nat) : 1 ≤ (Nat.toDigits 10 n).length := by
  rw [toDigits_ten_eq]
  by_cases h : n < 10 <;> simp [h]

theorem candidate_ne_default (i : Nat) : candidate i ≠ "match_stats.csv" := by
  intro h
  have hl := congrArg String.length h
  have hts : (toString i : String).length = (Nat.toDigits 10 i).length := rfl
  simp only [candidate, String.length_append, hts] at hl
  have h1 := toDigits_ten_length_pos i
  have h2 : ("match_stats_" : String).length = 12 := rfl
  have h3 : (".csv" : String).length = 4 := rfl
  have h4 : ("match_stats.csv" : String).length = 15 := rfl
  omega

theorem probeAux_sound (fs : List String) : ∀ (fuel i j : Nat),
    probeAux fs fuel i = some j →
    i ≤ j ∧ candidate j ∉ fs ∧ ∀ k, i ≤ k → k < j → candidate k ∈ fs := by
  intro fuel
  induction fuel with
  | zero => intro i j h; simp [probeAux] at h
  | succ f ih =>
    intro i j h
    by_cases hc : candidate i ∈ fs
    · rw [probeAux, if_pos hc] at h
      obtain ⟨h1, h2, h3⟩ := ih (i + 1) j h
      refine ⟨by omega, h2, ?_⟩
      intro k hk1 hk2
      by_cases hk : k = i
      · subst hk; exact hc
      · exact h3 k (by omega) hk2
    · rw [probeAux, if_neg hc] at h
      injection h with h
      subst h
      exact ⟨Nat.le_refl _, hc, fun k hk1 hk2 => absurd hk2 (by omega)⟩

theorem probeAux_none (fs : List String) : ∀ (fuel i : Nat),
    probeAux fs fuel i = none → ∀ k, k < fuel → candidate (i + k) ∈ fs := by
  intro fuel
  induction fuel with
  | zero => intro i h k hk; omega
  | succ f ih =>
    intro i h k hk
    by_cases hc : candidate i ∈ fs
    · rw [probeAux, if_pos hc] at h
      rcases Nat.eq_zero_or_pos k with rfl | hk0
      · simpa using hc
      · have hm := ih (i + 1) h (k - 1) (by omega)
        have he : i + 1 + (k - 1) = i + k := by omega
        rwa [he] at hm
    · rw [probeAux, if_neg hc] at h
      exact absurd h (by simp)

theorem probeAux_isSome (fs : List String) (i : Nat) :
    (probeAux fs (fs.length + 1) i).isSome := by
  cases hp : probeAux fs (fs.length + 1) i with
  | some j => rfl
  | none =>
    exfalso
    have hall : ∀ k, k < fs.length + 1 → candidate (i + k) ∈ fs :=
      probeAux_none fs _ i hp
    set l : List String :=
      (List.range (fs.length + 1)).map (fun k => candidate (i + k)) with hl
    have hnd : l.Nodup := by
      refine List.Nodup.map ?_ (List.nodup_range _)
      intro a b hab
      have := candidate_inj hab
      omega
    have hsub : l.toFinset ⊆ fs.toFinset := by
      intro x hx
      rw [List.mem_toFinset] at hx ⊢
      rw [hl, List.mem_map] at hx
      obtain ⟨k, hk, rfl⟩ := hx
      exact hall k (List.mem_range.mp hk)
    have hcard : l.length ≤ fs.length := by
      calc l.length = l.toFinset.card := (List.toFinset_card_of_nodup hnd).symm
        _ ≤ fs.toFinset.card := Finset.card_le_card hsub
        _ ≤ fs.length := List.toFinset_card_le fs
    have hlen : l.length = fs.length + 1 := by simp [hl]
    omega

theorem probeAux_mono (fs : List String) : ∀ (f1 f2 i j : Nat),
    probeAux fs f1 i = some j → f1 ≤ f2 → probeAux fs f2 i = some j := by
  intro f1
  induction f1 with
  | zero => intro f2 i j h; simp [probeAux] at h
  | succ g ih =>
    intro f2 i j h hle
    cases f2 with
    | zero => omega
    | succ k =>
      by_cases hc : candidate i ∈ fs
      · rw [probeAux, if_pos hc] at h ⊢
        exact ih k (i + 1) j h (by omega)
      · rw [probeAux, if_neg hc] at h ⊢
        exact h

theorem least_free_unique {fs : List String} {a b : Nat}
    (ha : candidate a ∉ fs) (ha2 : ∀ k, 1 ≤ k → k < a → candidate k ∈ fs)
    (hb : candidate b ∉ fs) (hb2 : ∀ k, 1 ≤ k → k < b → candidate k ∈ fs)
    (ha1 : 1 ≤ a) (hb1 : 1 ≤ b) : a = b := by
  by_contra hne
  rcases Nat.lt_or_ge a b with hlt | hge
  · exact ha (hb2 a ha1 hlt)
  · exact hb (ha2 b hb1 (by omega))

theorem nextAvail_eq_base {fs : List String} {base : String} (h : base ∉ fs) :
    next_available_filename fs base = base := by
  simp [next_available_filename, h]

theorem nextAvail_mem_spec {fs : List String} {base : String} (h : base ∈ fs) :
    ∃ i, 1 ≤ i ∧ candidate i ∉ fs ∧
      (∀ j, 1 ≤ j → j < i → candidate j ∈ fs) ∧
      next_available_filename fs base = candidate i := by
  obtain ⟨i, hp⟩ := Option.isSome_iff_exists.mp (probeAux_isSome fs 1)
  obtain ⟨h1, h2, h3⟩ := probeAux_sound fs _ 1 i hp
  refine ⟨i, h1, h2, h3, ?_⟩
  simp only [next_available_filename, if_pos h, hp]

theorem nextAvail_not_mem (fs : List String) (base : String) :
    next_available_filename fs base ∉ fs := by
  by_cases h : base ∈ fs
  · obtain ⟨i, _, h2, _, he⟩ := nextAvail_mem_spec h
    rw [he]; exact h2
  · rw [nextAvail_eq_base h]; exact h

/-- C1: for every filesystem state, called as on line 29 (with the default
base `'match_stats.csv'`), the function returns `match_stats.csv` when no file
exists at that path, and otherwise `match_stats_<i>.csv` for the least `i ≥ 1`
whose path does not exist (linear probe, no gap-filling below the first free
number). -/
theorem next_available_filename_spec (fs : List String) :
    ("match_stats.csv" ∉ fs →
      next_available_filename fs "match_stats.csv" = "match_stats.csv") ∧
    ("match_stats.csv" ∈ fs →
      ∃ i, 1 ≤ i ∧ candidate i ∉ fs ∧
        (∀ j, 1 ≤ j → j < i → candidate j ∈ fs) ∧
        next_available_filename fs "match_stats.csv" = candidate i) :=
  ⟨fun h => nextAvail_eq_base h, fun h => nextAvail_mem_spec h⟩

/-- Witness for `next_available_filename_spec`: in an empty directory the
default name is kept; with `match_stats.csv` and `match_stats_1.csv` already
present the least free index is selected. -/
theorem next_available_filename_spec_witness :
    next_available_filename [] "match_stats.csv" = "match_stats.csv" ∧
    ∃ i, 1 ≤ i ∧ candidate i ∉ ["match_stats.csv", "match_stats_1.csv"] ∧
      (∀ j, 1 ≤ j → j < i →
        candidate j ∈ ["match_stats.csv", "match_stats_1.csv"]) ∧
      next_available_filename ["match_stats.csv", "match_stats_1.csv"]
        "match_stats.csv" = candidate i :=
  ⟨(next_available_filename_spec []).1 (by decide),
   (next_available_filename_spec _).2 (by decide)⟩

/-- C9: for every finite set of existing paths the probe terminates: fuel
`length fs + 1` already yields a free candidate with index `≥ 1`, giving the
loop more budget never changes the result (the bound is a proof device, not a
cap imposed by the program), and the returned path is never one of the
existing paths. -/
theorem probe_terminates_fresh (fs : List String) (base : String) :
    (∃ i, 1 ≤ i ∧ probeAux fs (fs.length + 1) 1 = some i ∧ candidate i ∉ fs) ∧
    (∀ fuel, fs.length + 1 ≤ fuel →
      probeAux fs fuel 1 = probeAux fs (fs.length + 1) 1) ∧
    next_available_filename fs base ∉ fs := by
  obtain ⟨i, hp⟩ := Option.isSome_iff_exists.mp (probeAux_isSome fs 1)
  obtain ⟨h1, h2, _⟩ := probeAux_sound fs _ 1 i hp
  refine ⟨⟨i, h1, hp, h2⟩, ?_, nextAvail_not_mem fs base⟩
  intro fuel hf
  rw [hp]
  exact probeAux_mono fs _ fuel 1 i hp hf

/-- C10 (implicit): the numbered fallback ignores the `base` parameter: as
soon as `base` names an existing file the returned name is
`match_stats_<i>.csv` for some `i ≥ 1` whatever `base` is, and any two
existing `base` arguments give the same result, so for a `base` of any other
shape the result does not derive from `base` at all. -/
theorem fallback_ignores_base (fs : List String) (b1 b2 : String)
    (h1 : b1 ∈ fs) (h2 : b2 ∈ fs) :
    (∃ i, 1 ≤ i ∧ next_available_filename fs b1 = candidate i) ∧
    next_available_filename fs b1 = next_available_filename fs b2 := by
  obtain ⟨i, hi1, _, _, he⟩ := nextAvail_mem_spec h1
  obtain ⟨j, _, _, _, he2⟩ := nextAvail_mem_spec h2
  refine ⟨⟨i, hi1, he⟩, ?_⟩
  rw [he, he2]
  simp only [next_available_filename, if_pos h1] at he
  simp only [next_available_filename, if_pos h2] at he2
  cases hp : probeAux fs (fs.length + 1) 1 with
  | some k => rw [hp] at he he2; rw [← he, ← he2]
  | none =>
    exfalso
    have := probeAux_isSome fs 1
    rw [hp] at this
    exact absurd this (by simp)

/-- Witness for `fallback_ignores_base`: an existing file named
`results.csv`, passed as `base`, still yields `match_stats_1.csv`, a name
unrelated to `base`. -/
theorem fallback_ignores_base_witness :
    ((∃ i, 1 ≤ i ∧
        next_available_filename ["results.csv"] "results.csv" = candidate i) ∧
      next_available_filename ["results.csv"] "results.csv" =
        next_available_filename ["results.csv"] "results.csv") ∧
    next_available_filename ["results.csv"] "results.csv" =
      "match_stats_1.csv" :=
  ⟨fallback_ignores_base ["results.csv"] "results.csv" "results.csv"
      (by decide) (by decide),
    by decide⟩

theorem runState_mem : ∀ (n : Nat) (p : String),
    p ∈ runState n ↔
      (1 ≤ n ∧ p = "match_stats.csv") ∨
      (∃ i, 1 ≤ i ∧ i < n ∧ p = candidate i) := by
  intro n
  induction n with
  | zero =>
    intro p
    simp [runState]
  | succ m ih =>
    intro p
    rcases Nat.eq_zero_or_pos m with rfl | hm
    · have hempty : ("match_stats.csv" : String) ∉ runState 0 := by
        simp [runState]
      rw [runState, nextAvail_eq_base hempty]
      simp only [runState, List.mem_cons, List.not_mem_nil, or_false]
      constructor
      · rintro rfl
        exact Or.inl ⟨by omega, rfl⟩
      · rintro (⟨_, rfl⟩ | ⟨i, hi1, hi2, rfl⟩)
        · rfl
        · omega
    · have hbase : ("match_stats.csv" : String) ∈ runState m :=
        (ih _).mpr (Or.inl ⟨hm, rfl⟩)
      obtain ⟨i, hi1, hfree, hleast, he⟩ := nextAvail_mem_spec hbase
      have hieq : i = m := by
        refine least_free_unique hfree hleast ?_ ?_ hi1 hm
        · rw [ih]
          rintro (⟨_, hcm⟩ | ⟨j, hj1, hj2, hcj⟩)
          · exact candidate_ne_default m hcm
          · exact absurd (candidate_inj hcj) (by omega)
        · intro k hk1 hk2
          exact (ih _).mpr (Or.inr ⟨k, hk1, hk2, rfl⟩)
      rw [runState, he, hieq]
      simp only [List.mem_cons, ih]
      constructor
      · rintro (rfl | ⟨_, rfl⟩ | ⟨j, hj1, hj2, rfl⟩)
        · exact Or.inr ⟨m, hm, by omega, rfl⟩
        · exact Or.inl ⟨by omega, rfl⟩
        · exact Or.inr ⟨j, hj1, by omega, rfl⟩
      · rintro (⟨_, rfl⟩ | ⟨j, hj1, hj2, rfl⟩)
        · exact Or.inr (Or.inl ⟨hm, rfl⟩)
        · by_cases hjm : j = m
          · subst hjm; exact Or.inl rfl
          · exact Or.inr (Or.inr ⟨j, hj1, by omega, rfl⟩)

theorem runState_nodup : ∀ n : Nat, (runState n).Nodup := by
  intro n
  induction n with
  | zero => simp [runState]
  | succ m ih =>
    rw [runState]
    exact List.Nodup.cons (nextAvail_not_mem (runState m) _) ih

/-- C2: across repeated runs of the tool in the same directory, the chosen
output name never already exists, so no file existing before a run is
truncated or overwritten by that run; each file is created exactly once; and
after `n + 1` runs starting from an empty directory the existing files are
exactly `match_stats.csv`, `match_stats_1.csv`, …, `match_stats_n.csv`. -/
theorem runs_never_overwrite (n : Nat) :
    next_available_filename (runState n) "match_stats.csv" ∉ runState n ∧
    (runState n).Nodup ∧
    (∀ p, p ∈ runState (n + 1) ↔
      p = "match_stats.csv" ∨ ∃ i, 1 ≤ i ∧ i ≤ n ∧ p = candidate i) := by
  refine ⟨nextAvail_not_mem _ _, runState_nodup n, ?_⟩
  intro p
  rw [runState_mem]
  constructor
  · rintro (⟨_, rfl⟩ | ⟨i, hi1, hi2, rfl⟩)
    · exact Or.inl rfl
    · exact Or.inr ⟨i, hi1, by omega, rfl⟩
  · rintro (rfl | ⟨i, hi1, hi2, rfl⟩)
    · exact Or.inl ⟨by omega, rfl⟩
    · exact Or.inr ⟨i, hi1, by omega, rfl⟩

/-- C6: a document with zero matching player blocks yields an empty sequence
of records, and the output file content is then exactly the single header
line. -/
theorem empty_doc_header_only :
    rows ([] : List PlayerItem) = [] ∧
    csvContent (rows []) =
      "player,rank,TRS,ACS,K,D,A,+/-,K/D,DDΔ,ADR,HS%,KAST,FK,FD,MK\r\n" :=
  ⟨rfl, by decide⟩

/-- C7: whatever the extracted records are, the output file starts with the
fixed literal header line naming the 16 columns in their fixed order. -/
theorem header_fixed (rs : List (List String)) :
    headerRow.length = 16 ∧
    ∃ rest : String, csvContent rs =
      "player,rank,TRS,ACS,K,D,A,+/-,K/D,DDΔ,ADR,HS%,KAST,FK,FD,MK\r\n" ++
        rest := by
  refine ⟨rfl, ⟨writeAll (rs.map (fun r => r.map String.data))⟩, ?_⟩
  have hh : (⟨writeRecord (headerRow.map String.data)⟩ : String) =
      "player,rank,TRS,ACS,K,D,A,+/-,K/D,DDΔ,ADR,HS%,KAST,FK,FD,MK\r\n" := by
    decide
  calc csvContent rs
      = (⟨writeRecord (headerRow.map String.data)⟩ : String) ++
        (⟨writeAll (rs.map (fun r => r.map String.data))⟩ : String) := rfl
    _ = _ := by rw [hh]

theorem parse_escape (f : List Char) : ∀ (rest fld : List Char)
    (acc : List (List Char)) (out : List (List (List Char))),
    parseAux .inQuoted (escapeField f ++ '"' :: rest) fld acc out =
      parseAux .quoteInQuoted rest (fld ++ f) acc out := by
  induction f with
  | nil => intro rest fld acc out; simp [escapeField, parseAux]
  | cons c cs ih =>
    intro rest fld acc out
    by_cases hc : c = '"'
    · subst hc
      rw [show escapeField ('"' :: cs) = '"' :: '"' :: escapeField cs from rfl]
      rw [show ('"' : Char) :: '"' :: escapeField cs ++ '"' :: rest =
        '"' :: ('"' :: (escapeField cs ++ '"' :: rest)) from rfl]
      rw [parseAux, if_pos rfl, parseAux, if_pos rfl, ih]
      simp
    · rw [show escapeField (c :: cs) = c :: escapeField cs by
        simp [escapeField, hc]]
      rw [show (c :: escapeField cs) ++ '"' :: rest =
        c :: (escapeField cs ++ '"' :: rest) from rfl]
      rw [parseAux, if_neg hc, ih]
      simp

theorem parse_unquoted (f : List Char) : needsQuote f = false →
    ∀ (rest fld : List Char) (acc : List (List Char))
      (out : List (List (List Char))),
    parseAux .inField (f ++ rest) fld acc out =
      parseAux .inField rest (fld ++ f) acc out := by
  induction f with
  | nil => intro _ rest fld acc out; simp
  | cons c cs ih =>
    intro hq rest fld acc out
    simp only [needsQuote, List.any_cons, Bool.or_eq_false_iff,
      decide_eq_false_iff_not] at hq
    obtain ⟨⟨⟨⟨h1, h2⟩, h3⟩, h4⟩, h5⟩ := hq
    rw [show (c :: cs) ++ rest = c :: (cs ++ rest) from rfl]
    rw [parseAux, if_neg (by tauto), if_neg h1,
      ih (by simpa [needsQuote] using h5)]
    simp

theorem parse_field_comma (f : List Char) (rest : List Char)
    (acc : List (List Char)) (out : List (List (List Char))) :
    parseAux .startField (writeField f ++ ',' :: rest) [] acc out =
      parseAux .startField rest [] (acc ++ [f]) out := by
  by_cases hq : needsQuote f
  · rw [writeField, if_pos hq]
    rw [show ('"' :: (escapeField f ++ ['"'])) ++ ',' :: rest =
      '"' :: (escapeField f ++ '"' :: ',' :: rest) by simp]
    rw [parseAux, if_neg (by decide), if_neg (by decide), if_pos rfl,
      parse_escape, parseAux, if_neg (by decide), if_pos rfl]
    simp
  · have hq0 : needsQuote f = false := by simpa using hq
    rw [writeField, if_neg hq]
    cases f with
    | nil =>
      rw [show ([] : List Char) ++ ',' :: rest = ',' :: rest from rfl]
      rw [parseAux, if_neg (by decide), if_pos rfl]
    | cons c cs =>
      simp only [needsQuote, List.any_cons, Bool.or_eq_false_iff,
        decide_eq_false_iff_not] at hq0
      obtain ⟨⟨⟨⟨h1, h2⟩, h3⟩, h4⟩, h5⟩ := hq0
      rw [show (c :: cs) ++ ',' :: rest = c :: (cs ++ ',' :: rest) from rfl]
      rw [parseAux, if_neg (by tauto), if_neg h1, if_neg h2,
        parse_unquoted cs (by simpa [needsQuote] using h5),
        parseAux, if_neg (by decide), if_pos rfl]
      simp

theorem parse_field_crlf (f : List Char) (rest : List Char)
    (acc : List (List Char)) (out : List (List (List Char))) :
    parseAux .startField (writeField f ++ '\r' :: '\n' :: rest) [] acc out =
      parseAux .record rest [] [] (out ++ [acc ++ [f]]) := by
  by_cases hq : needsQuote f
  · rw [writeField, if_pos hq]
    rw [show ('"' :: (escapeField f ++ ['"'])) ++ '\r' :: '\n' :: rest =
      '"' :: (escapeField f ++ '"' :: '\r' :: '\n' :: rest) by simp]
    rw [parseAux, if_neg (by decide), if_neg (by decide), if_pos rfl,
      parse_escape, parseAux, if_neg (by decide), if_neg (by decide),
      if_pos (by decide), parseAux, if_pos (by decide)]
    simp
  · have hq0 : needsQuote f = false := by simpa using hq
    rw [writeField, if_neg hq]
    cases f with
    | nil =>
      rw [show ([] : List Char) ++ '\r' :: '\n' :: rest =
        '\r' :: '\n' :: rest from rfl]
      rw [parseAux, if_pos (by decide), parseAux, if_pos (by decide)]
    | cons c cs =>
      simp only [needsQuote, List.any_cons, Bool.or_eq_false_iff,
        decide_eq_false_iff_not] at hq0
      obtain ⟨⟨⟨⟨h1, h2⟩, h3⟩, h4⟩, h5⟩ := hq0
      rw [show (c :: cs) ++ '\r' :: '\n' :: rest =
        c :: (cs ++ '\r' :: '\n' :: rest) from rfl]
      rw [parseAux, if_neg (by tauto), if_neg h1, if_neg h2,
        parse_unquoted cs (by simpa [needsQuote] using h5),
        parseAux, if_pos (by decide), parseAux, if_pos (by decide)]
      simp

theorem parse_fields (fs : List (List Char)) : fs ≠ [] →
    ∀ (rest : List Char) (acc : List (List Char))
      (out : List (List (List Char))),
    parseAux .startField (joinFields fs ++ '\r' :: '\n' :: rest) [] acc out =
      parseAux .record rest [] [] (out ++ [acc ++ fs]) := by
  induction fs with
  | nil => intro h; exact absurd rfl h
  | cons f fs ih =>
    intro _ rest acc out
    cases fs with
    | nil =>
      rw [show joinFields [f] = writeField f from rfl, parse_field_crlf]
    | cons f2 fs2 =>
      rw [show joinFields (f :: f2 :: fs2) =
        writeField f ++ ',' :: joinFields (f2 :: fs2) from rfl]
      rw [List.append_assoc,
        show (',' :: joinFields (f2 :: fs2)) ++ '\r' :: '\n' :: rest =
          ',' :: (joinFields (f2 :: fs2) ++ '\r' :: '\n' :: rest) from rfl,
        parse_field_comma, ih (by simp)]
      simp

theorem record_eq_startField (c : Char) (cs : List Char)
    (out : List (List (List Char))) (hc : ¬(c = '\r' ∨ c = '\n')) :
    parseAux .record (c :: cs) [] [] out =
      parseAux .startField (c :: cs) [] [] out := by
  rw [parseAux, parseAux, if_neg hc, if_neg hc]
  by_cases h1 : c = ','
  · rw [if_pos h1, if_pos h1]
    rfl
  · rw [if_neg h1, if_neg h1]

theorem joinFields_head (f : List Char) (fs : List (List Char))
    (h : ¬(f = [] ∧ fs = [])) :
    ∃ c cs, joinFields (f :: fs) = c :: cs ∧ ¬(c = '\r' ∨ c = '\n') := by
  by_cases hq : needsQuote f
  · refine ⟨'"', ?_, ?_, by decide⟩
    · exact (escapeField f ++ ['"']) ++
        (match fs with | [] => [] | _ :: _ => ',' :: joinFields fs)
    · cases fs with
      | nil =>
        rw [show joinFields [f] = writeField f from rfl, writeField,
          if_pos hq]
        simp
      | cons f2 fs2 =>
        rw [show joinFields (f :: f2 :: fs2) =
          writeField f ++ ',' :: joinFields (f2 :: fs2) from rfl,
          writeField, if_pos hq]
        simp
  · have hq0 : needsQuote f = false := by simpa using hq
    cases f with
    | nil =>
      cases fs with
      | nil => exact absurd ⟨rfl, rfl⟩ h
      | cons f2 fs2 =>
        refine ⟨',', joinFields (f2 :: fs2), ?_, by decide⟩
        rw [show joinFields ([] :: f2 :: fs2) =
          writeField [] ++ ',' :: joinFields (f2 :: fs2) from rfl,
          writeField, if_neg (by simp [needsQuote])]
        rfl
    | cons c cs =>
      simp only [needsQuote, List.any_cons, Bool.or_eq_false_iff,
        decide_eq_false_iff_not] at hq0
      obtain ⟨⟨⟨⟨h1, h2⟩, h3⟩, h4⟩, h5⟩ := hq0
      have hw : writeField (c :: cs) = c :: cs := by
        rw [writeField, if_neg hq]
      cases fs with
      | nil =>
        exact ⟨c, cs, by rw [show joinFields [c :: cs] =
          writeField (c :: cs) from rfl, hw], by tauto⟩
      | cons f2 fs2 =>
        refine ⟨c, cs ++ ',' :: joinFields (f2 :: fs2), ?_, by tauto⟩
        rw [show joinFields ((c :: cs) :: f2 :: fs2) =
          writeField (c :: cs) ++ ',' :: joinFields (f2 :: fs2) from rfl, hw]
        rfl

theorem parse_record (r : List (List Char)) (hr : r ≠ []) (rest : List Char)
    (out : List (List (List Char))) :
    parseAux .record (writeRecord r ++ rest) [] [] out =
      parseAux .record rest [] [] (out ++ [r]) := by
  by_cases hs : r = [[]]
  · subst hs
    rw [writeRecord, if_pos rfl]
    rfl
  · rw [writeRecord, if_neg hs]
    obtain ⟨f, fs, rfl⟩ : ∃ f fs, r = f :: fs := by
      cases r with
      | nil => exact absurd rfl hr
      | cons a l => exact ⟨a, l, rfl⟩
    have hnot : ¬(f = [] ∧ fs = []) := by
      rintro ⟨rfl, rfl⟩
      exact hs rfl
    obtain ⟨c, cs, hj, hc⟩ := joinFields_head f fs hnot
    have key := parse_fields (f :: fs) (by simp) rest [] out
    rw [hj] at key
    rw [List.append_assoc,
      show (['\r', '\n'] : List Char) ++ rest = '\r' :: '\n' :: rest from rfl,
      hj, List.cons_append, record_eq_startField c _ out hc,
      ← List.cons_append, key]
    simp

theorem parse_writeAll (rs : List (List (List Char)))
    (h : ∀ r ∈ rs, r ≠ []) : ∀ (rest : List Char)
      (out : List (List (List Char))),
    parseAux .record (writeAll rs ++ rest) [] [] out =
      parseAux .record rest [] [] (out ++ rs) := by
  induction rs with
  | nil => intro rest out; simp [writeAll]
  | cons r rs ih =>
    intro rest out
    rw [writeAll, List.append_assoc, parse_record r (h r (by simp)),
      ih (fun x hx => h x (by simp [hx]))]
    simp

theorem parse_serialize (rs : List (List (List Char)))
    (h : ∀ r ∈ rs, r ≠ []) :
    parseAux .record (writeAll rs) [] [] [] = rs := by
  have hp := parse_writeAll rs h [] []
  rw [List.append_nil] at hp
  rw [hp]
  rfl

theorem map_data_mk (rs : List (List (List Char))) :
    ((rs.map (fun r => r.map (fun f => (⟨f⟩ : String)))).map
      (fun r => r.map String.data)) = rs := by
  have h1 : ∀ r : List (List Char),
      (r.map (fun f => (⟨f⟩ : String))).map String.data = r := by
    intro r
    rw [List.map_map]
    have h2 : (String.data ∘ fun f : List Char => (⟨f⟩ : String)) = id :=
      funext fun f => rfl
    rw [h2, List.map_id]
  rw [List.map_map]
  have h3 : ((fun r : List String => r.map String.data) ∘
      fun r : List (List Char) => r.map (fun f => (⟨f⟩ : String))) = id :=
    funext fun r => h1 r
  rw [h3, List.map_id]

/-- C8: for every extracted document, parsing the produced CSV file with a
standard CSV reader and re-serializing the resulting rows with the same
writer yields byte-identical output: minimal quoting is idempotent. -/
theorem csv_round_trip (doc : List PlayerItem) :
    csvSerialize (csvParse (csvContent (rows doc))) = csvContent (rows doc) := by
  have hne : ∀ r ∈ (headerRow :: rows doc).map (fun r => r.map String.data),
      r ≠ [] := by
    intro r hr
    simp only [List.mem_map] at hr
    obtain ⟨r', hr', rfl⟩ := hr
    rcases List.mem_cons.mp hr' with rfl | hmem
    · simp [headerRow]
    · obtain ⟨item, _, rfl⟩ := List.mem_map.mp hmem
      simp [row]
  have hparse : csvParse (csvContent (rows doc)) =
      ((headerRow :: rows doc).map (fun r => r.map String.data)).map
        (fun r => r.map (fun f => (⟨f⟩ : String))) := by
    show (parseAux .record (writeAll ((headerRow :: rows doc).map
        (fun r => r.map String.data))) [] [] []).map
        (fun r => r.map (fun f => (⟨f⟩ : String))) = _
    rw [parse_serialize _ hne]
  rw [hparse, csvSerialize, map_data_mk]
  rfl

/-- Witness for `probe_terminates_fresh` at the concrete singleton filesystem
holding only the default name. -/
theorem probe_terminates_fresh_witness :
    (∃ i, 1 ≤ i ∧
      probeAux ["match_stats.csv"] (List.length ["match_stats.csv"] + 1) 1 =
        some i ∧ candidate i ∉ ["match_stats.csv"]) ∧
    (∀ fuel, List.length ["match_stats.csv"] + 1 ≤ fuel →
      probeAux ["match_stats.csv"] fuel 1 =
        probeAux ["match_stats.csv"] (List.length ["match_stats.csv"] + 1) 1) ∧
    next_available_filename ["match_stats.csv"] "match_stats.csv" ∉
      ["match_stats.csv"] :=
  probe_terminates_fresh ["match_stats.csv"] "match_stats.csv"

/-- Witness for `runs_never_overwrite` after two concrete runs. -/
theorem runs_never_overwrite_witness :
    next_available_filename (runState 2) "match_stats.csv" ∉ runState 2 ∧
    (runState 2).Nodup ∧
    (∀ p, p ∈ runState (2 + 1) ↔
      p = "match_stats.csv" ∨ ∃ i, 1 ≤ i ∧ i ≤ 2 ∧ p = candidate i) :=
  runs_never_overwrite 2
